import Mathlib

/-!
# Verification of the Harbor service-orchestrator core

Shallow embedding of `crates/core/src/orchestrator.rs`, `health.rs`,
`state.rs` and `types.rs`, together with proofs about the embedded
operations.

Modelling conventions:
* Rust `HashMap` iteration order is unspecified, so every place the code
  iterates over a hash map (the seeding of Kahn's queue from `indeg`) is
  parametrised by an explicit iteration order `sigma`, constrained in the
  theorems to be a permutation of the map's keys.
* OS effects (process spawning, the live process table, health probes,
  wall-clock time) are parametrised by explicit oracles.
* `usize` in-degree arithmetic: in release mode Rust `*e -= 1` wraps, so
  the decremented value is `0` exactly when the old value was `1`; the
  model uses truncated `Nat` subtraction together with the test `e = 1`,
  which agrees with the wrapping semantics at every reachable state.
-/

/-! ## Data model (`types.rs`, `state.rs`) -/

inductive HealthCheckKind where
  | command
  | http
  | tcp
  | none
deriving DecidableEq, Repr

structure HealthCheck where
  kind : HealthCheckKind
  command : Option String
  url : Option String
  tcp_port : Option Nat
  timeout_ms : Option Nat
  retries : Option Nat
deriving DecidableEq, Repr

structure Service where
  name : String
  command : String
  cwd : Option String
  env : Option (List (String × String))
  depends_on : Option (List String)
  health_check : Option HealthCheck
deriving DecidableEq, Repr

structure WorkspaceConfig where
  services : List Service
deriving DecidableEq, Repr

/-- `state.rs`: one persisted record per spawned process. Paths are
modelled as strings. -/
structure RunningService where
  name : String
  pid : Int
  start_time : Option Nat
  stdout_log : String
  stderr_log : String
deriving DecidableEq, Repr

structure State where
  services : List RunningService
deriving DecidableEq, Repr

/-- The live OS process table, as queried through `sysinfo`: a partial map
from a `u32` pid to that process's reported start time. -/
def ProcTable : Type := Nat → Option Nat

/-- `Pid::from_u32(s.pid as u32)`: the `i32 → u32` cast is reduction
modulo `2^32` of the two's-complement value. -/
def pidKey (p : Int) : Nat := (p % (2 ^ 32 : Int)).toNat

/-! ## Dependency resolution (`orchestrator.rs`, `topo_order`) -/

/-- `s.depends_on.clone().unwrap_or_default()`. -/
def depsOf (s : Service) : List String := s.depends_on.getD []

def serviceNames (services : List Service) : List String :=
  services.map (fun s => s.name)

/-- The key set of the `indeg` hash map: `indeg.entry(s.name).or_default()`
is called once per service, so the keys are the distinct service names. -/
def namesKeys (services : List Service) : List String :=
  (serviceNames services).dedup

/-- Initial in-degree: for every service `s` and every element of its
`depends_on` list, `indeg[s.name]` is incremented once. -/
def indeg0 (services : List Service) (n : String) : Nat :=
  (((services.filter (fun s => s.name == n)).map
      (fun s => (depsOf s).length))).sum

/-- Adjacency: for every service `s` and every `d` in `s.depends_on` (in
order), `adj[d]` receives a copy of `s.name`; a missing entry behaves as
the empty list. -/
def adj0 (services : List Service) (d : String) : List String :=
  (services.map (fun s =>
      ((depsOf s).filter (fun x => x == d)).map (fun _ => s.name))).flatten

/-- One neighbour step of the inner `for v in neigh` loop:
`indeg_mut.get_mut(v)` succeeds only for declared keys, the entry is
decremented, and `v` is enqueued exactly when the entry reaches zero
(old value `1`). -/
def relax (keys : List String) (st : (String → Nat) × List String)
    (v : String) : (String → Nat) × List String :=
  if v ∈ keys then
    ((fun n => if n = v then st.1 v - 1 else st.1 n),
      if st.1 v = 1 then st.2 ++ [v] else st.2)
  else st

/-- The `while let Some(u) = q.pop_front()` loop, fuelled.  Each
iteration appends the dequeued `u` to the result and relaxes all of its
out-neighbours `adj[u]`. -/
def kahnLoop (keys : List String) (adj : String → List String) :
    Nat → List String → (String → Nat) → List String → List String
  | 0, _, _, res => res
  | _ + 1, [], _, res => res
  | fuel + 1, u :: q, indeg, res =>
      let st := (adj u).foldl (relax keys) (indeg, q)
      kahnLoop keys adj fuel st.2 st.1 (res ++ [u])

def totalEdges (services : List Service) : Nat :=
  (services.map (fun s => (depsOf s).length)).sum

/-- Fuel bound: one unit per possible queue entry ever (seeded keys plus
one per edge), plus one.  The proofs show the queue always empties
strictly before the fuel runs out. -/
def topoFuel (services : List Service) : Nat :=
  services.length + totalEdges services + 1

/-- `topo_order`, parametrised by `sigma`, the (unspecified) iteration
order of the `indeg` hash map used to seed the queue. -/
def topo_order (sigma : List String) (services : List Service) :
    Except String (List String) :=
  let q0 := sigma.filter (fun n => indeg0 services n == 0)
  let res := kahnLoop (namesKeys services) (adj0 services)
      (topoFuel services) q0 (indeg0 services) []
  if res.length = (namesKeys services).length then Except.ok res
  else Except.error "cycle in dependencies"

/-- Edge relation of the dependency graph: `a` depends on `b`. -/
def dependsOnRel (services : List Service) (a b : String) : Prop :=
  ∃ s, s ∈ services ∧ s.name = a ∧ b ∈ depsOf s

/-- A cycle among the `depends_on` edges. -/
def hasCycle (services : List Service) : Prop :=
  ∃ n, Relation.TransGen (dependsOnRel services) n n

/-- Number of edge occurrences into `n` already processed: one per copy
of `n` in the adjacency list of a dequeued node. -/
def consumed (services : List Service) (res : List String) (n : String) : Nat :=
  (res.map (fun u => (adj0 services u).count n)).sum

/-- The distinct strings that occur in some `depends_on` list — exactly
the keys of the `adj` hash map. -/
def allDeps (services : List Service) : List String :=
  ((services.map depsOf).flatten).dedup

/-- Invariant of the outer Kahn loop, over the state
(queue, current in-degrees, emitted order). -/
structure KahnInv (services : List Service) (q : List String)
    (indeg : String → Nat) (res : List String) : Prop where
  nodup : (res ++ q).Nodup
  subk : ∀ n ∈ res ++ q, n ∈ namesKeys services
  degLe : ∀ n ∈ namesKeys services,
    consumed services res n ≤ indeg0 services n
  degEq : ∀ n ∈ namesKeys services,
    indeg n = indeg0 services n - consumed services res n
  memIff : ∀ n ∈ namesKeys services,
    (n ∈ res ++ q ↔ consumed services res n = indeg0 services n)
  posBefore : ∀ (i : Nat) (hi : i < res.length) (d : String),
    0 < (adj0 services d).count (res.get ⟨i, hi⟩) → d ∈ res.take i

/-- Invariant of the inner relaxation fold while processing the
out-neighbours of the just-dequeued node `u`: `p` is the already
processed prefix of `adj0 services u`, and `st` the current
(in-degrees, queue) pair. -/
structure RelaxInv (services : List Service) (u : String)
    (res : List String) (p : List String)
    (st : (String → Nat) × List String) : Prop where
  nodup : ((res ++ [u]) ++ st.2).Nodup
  subk : ∀ n ∈ (res ++ [u]) ++ st.2, n ∈ namesKeys services
  degLe : ∀ n ∈ namesKeys services,
    consumed services res n + p.count n ≤ indeg0 services n
  degEq : ∀ n ∈ namesKeys services,
    st.1 n = indeg0 services n - (consumed services res n + p.count n)
  memIff : ∀ n ∈ namesKeys services,
    (n ∈ (res ++ [u]) ++ st.2 ↔
      consumed services res n + p.count n = indeg0 services n)

/-! ## `down` and `status` (`orchestrator.rs`) -/

/-- The body of the `for s in st.services` loop of `down`: termination is
requested for `s.pid` exactly when the process table has an entry for the
pid and, if a start-time witness was recorded, the live start time equals
it (`if proc_.start_time() != st_time { continue; }`); with no recorded
witness the process is killed unconditionally. -/
def downKillsRecord (tbl : ProcTable) (s : RunningService) : Bool :=
  match tbl (pidKey s.pid) with
  | Option.none => false
  | Option.some t =>
      match s.start_time with
      | Option.some w => w == t
      | Option.none => true

/-- The records of the stored state for which `down` requests
termination (absent state file: the loop body never runs). -/
def downModel (tbl : ProcTable) (st : Option State) : List RunningService :=
  match st with
  | Option.none => []
  | Option.some st => st.services.filter (fun s => downKillsRecord tbl s)

/-- The liveness verdict of `status` for one stored record: the pid must
be present in the table, and if a witness is stored the live start time
must equal it; with no stored witness, presence of the pid suffices
(`alive = true // Fallback for old state without start_time`). -/
def statusAliveRecord (tbl : ProcTable) (s : RunningService) : Bool :=
  match tbl (pidKey s.pid) with
  | Option.none => false
  | Option.some t =>
      match s.start_time with
      | Option.some w => t == w
      | Option.none => true

/-- `status`: absent state yields an empty report, otherwise one
`(name, pid, alive)` triple per stored record, in order. -/
def statusModel (tbl : ProcTable) (st : Option State) :
    List (String × Int × Bool) :=
  match st with
  | Option.none => []
  | Option.some st =>
      st.services.map (fun s => (s.name, s.pid, statusAliveRecord tbl s))

/-! ## Health checks (`health.rs`) -/

/-- The per-attempt probe timeout passed to the underlying probe by
`attempt`: the `http` arm uses `hc.timeout_ms.unwrap_or(5000)`, the `tcp`
arm uses `hc.timeout_ms.unwrap_or(2000)`, and the `none` / `command` arms
run without a probe timeout. -/
def attemptTimeoutMs (hc : HealthCheck) : Option Nat :=
  match hc.kind with
  | HealthCheckKind.none => Option.none
  | HealthCheckKind.http => Option.some (hc.timeout_ms.getD 5000)
  | HealthCheckKind.tcp => Option.some (hc.timeout_ms.getD 2000)
  | HealthCheckKind.command => Option.none

/-- The retry loop of `wait_ready`, with oracles for each attempt's
outcome (`att i`) and duration (`dur i`), and `t2` the (wrapped `u64`)
value `timeout_ms * 2`.
State: remaining iterations of the `for` loop, index of the next attempt,
elapsed wall-clock time so far.  Returns (ready?, number of attempts
performed).  A failed attempt is followed by the fixed 300 ms sleep and
then the ceiling test `start.elapsed() > 2*timeout`. -/
def wrSteps (att : Nat → Bool) (dur : Nat → Nat) (t2 : Nat) :
    Nat → Nat → Nat → Bool × Nat
  | 0, i, _ => (false, i)
  | rem + 1, i, elapsed =>
      if att i then (true, i + 1)
      else
        let e2 := elapsed + dur i + 300
        if t2 < e2 then (false, i + 1)
        else wrSteps att dur t2 rem (i + 1) e2

/-- `wait_ready`: `retries.unwrap_or(10)` attempts at most; the ceiling
`Duration::from_millis(timeout_ms.unwrap_or(5000) * 2)` doubles the
timeout in `u64`, so its value wraps modulo `2 ^ 64` (release builds). -/
def wait_ready_model (hc : HealthCheck) (att : Nat → Bool)
    (dur : Nat → Nat) : Bool × Nat :=
  wrSteps att dur (hc.timeout_ms.getD 5000 * 2 % 2 ^ 64)
    (hc.retries.getD 10) 0 0

/-- Elapsed wall-clock time after `i` failed attempts: each contributes
its own duration plus the fixed 300 ms sleep. -/
def prefixElapsed (dur : Nat → Nat) (i : Nat) : Nat :=
  ((List.range i).map (fun j => dur j + 300)).sum

/-! ## `up` (`orchestrator.rs`) -/

/-- Observable outcome of one `up` invocation: which processes were
spawned, what (if anything) was written to the state file, and the
returned value. -/
structure UpOutcome where
  spawned : List RunningService
  written : Option State
  result : Except String State
deriving Repr

/-- The `by_name` hash map: services are inserted in declaration order,
so a duplicated name resolves to the last declaration. -/
def byName (services : List Service) (n : String) : Option Service :=
  services.reverse.find? (fun s => s.name == n)

/-- The `for name in order` loop of `up`: look the service up, spawn it
(aborting the whole run on a spawn error, with nothing written), run the
declared health check and discard its result, accumulate the record, and
after the loop write the full state and return it. -/
def upLoop (spawnFn : Service → Except String RunningService)
    (healthFn : HealthCheck → Except String Unit)
    (lookup : String → Option Service) :
    List String → List RunningService → UpOutcome
  | [], running => ⟨running, Option.some ⟨running⟩, Except.ok ⟨running⟩⟩
  | n :: rest, running =>
      match lookup n with
      | Option.none =>
          -- `by_name.get(&name).unwrap()`: unreachable, since every name
          -- produced by `topo_order` is a declared service name.
          ⟨running, Option.none, Except.error "panic: unwrap on missing service"⟩
      | Option.some s =>
          match spawnFn s with
          | Except.error e => ⟨running, Option.none, Except.error e⟩
          | Except.ok rs =>
              -- `if let Some(hc) = &s.health_check { let _ = wait_ready(hc); }`
              let _h := s.health_check.map healthFn
              upLoop spawnFn healthFn lookup rest (running ++ [rs])

/-- `up`, with the spawn and health effects as oracles and `sigma` the
hash-map iteration order used by `topo_order`. -/
def upRun (sigma : List String)
    (spawnFn : Service → Except String RunningService)
    (healthFn : HealthCheck → Except String Unit)
    (cfg : WorkspaceConfig) : UpOutcome :=
  match topo_order sigma cfg.services with
  | Except.error e => ⟨[], Option.none, Except.error e⟩
  | Except.ok order => upLoop spawnFn healthFn (byName cfg.services) order []

/-- The spawn records accumulated over a list of names on which every
spawn succeeds. -/
def okSpawns (lookup : String → Option Service)
    (spawnFn : Service → Except String RunningService)
    (names : List String) : List RunningService :=
  names.filterMap (fun n => (lookup n).bind (fun s => (spawnFn s).toOption))

/-! ## Concrete inputs used by witnesses and counterexamples -/

/-- A process table holding a single live process: pid 42, started at
time 1000. -/
def tblC1 : ProcTable := fun p => if p = 42 then Option.some 1000 else Option.none

/-- A stored record for pid 42 that carries no start-time witness
(legacy state written before witness capture). -/
def recC1 : RunningService :=
  ⟨"svc", 42, Option.none, "logs/svc.out.log", "logs/svc.err.log"⟩

/-- A process table where pid 5 is live with start time 8. -/
def tblC4 : ProcTable := fun p => if p = 5 then Option.some 8 else Option.none

/-- A stored record for pid 5 whose recorded witness (7) differs from
the live start time (8): a reused pid. -/
def recC4 : RunningService := ⟨"a", 5, Option.some 7, "logs/a.out.log", "logs/a.err.log"⟩

def stC4 : State := ⟨[recC4]⟩

/-- A `tcp` health check with no explicit per-attempt timeout. -/
def tcpDefaultHC : HealthCheck :=
  ⟨HealthCheckKind.tcp, Option.none, Option.none, Option.some 8080,
    Option.none, Option.none⟩

/-- An `http` health check with no explicit per-attempt timeout. -/
def httpDefaultHC : HealthCheck :=
  ⟨HealthCheckKind.http, Option.none, Option.some "http://localhost:8080/",
    Option.none, Option.none, Option.none⟩

def svcWa : Service :=
  ⟨"a", "echo a", Option.none, Option.none, Option.none, Option.none⟩

def svcWb : Service :=
  ⟨"b", "echo b", Option.none, Option.none, Option.none, Option.none⟩

def cfgW : WorkspaceConfig := ⟨[svcWa, svcWb]⟩

def rsWa : RunningService :=
  ⟨"a", 101, Option.some 11, "logs/a.out.log", "logs/a.err.log"⟩

def rsWb : RunningService :=
  ⟨"b", 102, Option.some 12, "logs/b.out.log", "logs/b.err.log"⟩

/-- A spawn oracle that succeeds for service `a` and fails for `b`. -/
def spawnW : Service → Except String RunningService :=
  fun s => if s.name == "b" then Except.error "spawn failed" else Except.ok rsWa

/-- A spawn oracle that succeeds for every service. -/
def spawnWok : Service → Except String RunningService :=
  fun s => if s.name == "a" then Except.ok rsWa else Except.ok rsWb

/-- A health oracle on which every check fails (times out). -/
def healthW : HealthCheck → Except String Unit := fun _ => Except.error "not ready"

/-- A health check with 3 retries, used to exercise the retry policy. -/
def hcW : HealthCheck :=
  ⟨HealthCheckKind.tcp, Option.none, Option.none, Option.some 9,
    Option.none, Option.some 3⟩

/-- Attempt oracle: only the second attempt (index 1) succeeds. -/
def attW : Nat → Bool := fun i => i == 1

/-- Every attempt takes 100 ms. -/
def durW : Nat → Nat := fun _ => 100

/-- A health check whose configured timeout makes `timeout_ms * 2`
overflow `u64`: the wrapped ceiling is 0. -/
def hcBig : HealthCheck :=
  ⟨HealthCheckKind.command, Option.some "true", Option.none, Option.none,
    Option.some (2 ^ 63), Option.none⟩

/-- Attempt oracle on which every attempt fails. -/
def attFail : Nat → Bool := fun _ => false

/-- Every attempt returns instantly. -/
def durZero : Nat → Nat := fun _ => 0

/-- The three-service chain of the spec scenario:
`db ← backend ← frontend`. -/
def svcDb : Service :=
  ⟨"db", "run db", Option.none, Option.none, Option.none, Option.none⟩

def svcBackend : Service :=
  ⟨"backend", "run backend", Option.none, Option.none, Option.some ["db"],
    Option.none⟩

def svcFrontend : Service :=
  ⟨"frontend", "run frontend", Option.none, Option.none,
    Option.some ["backend"], Option.none⟩

def chainServices : List Service := [svcDb, svcBackend, svcFrontend]

/-- A two-service dependency cycle: `ca` and `cb` depend on each other. -/
def svcCycA : Service :=
  ⟨"ca", "run ca", Option.none, Option.none, Option.some ["cb"], Option.none⟩

def svcCycB : Service :=
  ⟨"cb", "run cb", Option.none, Option.none, Option.some ["ca"], Option.none⟩

def cfgCycle : WorkspaceConfig := ⟨[svcCycA, svcCycB]⟩

/-- A service depending on a name that no service declares. -/
def svcUndeclared : Service :=
  ⟨"u", "run u", Option.none, Option.none, Option.some ["ghost"],
    Option.none⟩

def cfgUndeclared : WorkspaceConfig := ⟨[svcUndeclared]⟩

/-! ## Theorems: `down` (claim C1) -/

/-- Claim C1 as stated is false: `down` requests termination of a live
process whose stored record carries **no** start-time witness (the claim
says the no-witness case performs no action).  Refuted at the concrete
record `recC1` (no witness) against the table `tblC1` (pid 42 live). -/
theorem down_kill_claim_counterexample :
    ¬ (∀ (tbl : ProcTable) (s : RunningService),
        downKillsRecord tbl s = true ↔
          ∃ t, tbl (pidKey s.pid) = Option.some t ∧
            s.start_time = Option.some t) := by
  intro h
  have hk : downKillsRecord tblC1 recC1 = true := by decide
  obtain ⟨t, -, hw⟩ := (h tblC1 recC1).mp hk
  simp [recC1] at hw

/-- Claim C1 (amended): for every record processed by `down`,
termination is requested iff a process with the stored id is in the live
table and either no witness was recorded (id-only fallback: the process
is killed) or the live start time equals the recorded witness. -/
theorem down_kill_requested_iff (tbl : ProcTable) (s : RunningService) :
    downKillsRecord tbl s = true ↔
      ∃ t, tbl (pidKey s.pid) = Option.some t ∧
        (s.start_time = Option.none ∨ s.start_time = Option.some t) := by
  cases htab : tbl (pidKey s.pid) with
  | none => simp [downKillsRecord, htab]
  | some t =>
      cases hst : s.start_time with
      | none => simp [downKillsRecord, htab, hst]
      | some w => simp [downKillsRecord, htab, hst, beq_iff_eq]

/-- Instantiation of `down_kill_requested_iff` at the no-witness record:
the kill is requested, exhibiting the id-only fallback. -/
theorem down_kill_requested_iff_witness :
    downKillsRecord tblC1 recC1 = true ∧ recC1.start_time = Option.none :=
  ⟨(down_kill_requested_iff tblC1 recC1).mpr
      ⟨1000, by decide, Or.inl (by decide)⟩,
    by decide⟩

/-! ## Theorems: `status` (claim C4) -/

/-- Claim C4: for every stored record, `status` reports one triple per
record; with a stored witness the record is reported alive iff the pid is
live with exactly the recorded start time (pid-reuse protection), and
with no stored witness it is reported alive iff any process with that pid
exists (id-only fallback). -/
theorem status_alive_spec (tbl : ProcTable) (st : State) (s : RunningService)
    (hs : s ∈ st.services) :
    (s.name, s.pid, statusAliveRecord tbl s) ∈ statusModel tbl (Option.some st) ∧
    (∀ w, s.start_time = Option.some w →
      (statusAliveRecord tbl s = true ↔ tbl (pidKey s.pid) = Option.some w)) ∧
    (s.start_time = Option.none →
      (statusAliveRecord tbl s = true ↔ (tbl (pidKey s.pid)).isSome = true)) := by
  refine ⟨?_, ?_, ?_⟩
  · simpa [statusModel] using
      List.mem_map_of_mem (fun s => (s.name, s.pid, statusAliveRecord tbl s)) hs
  · intro w hw
    cases htab : tbl (pidKey s.pid) <;>
      simp [statusAliveRecord, htab, hw, beq_iff_eq]
  · intro hw
    cases htab : tbl (pidKey s.pid) <;> simp [statusAliveRecord, htab, hw]

/-- Instantiation of `status_alive_spec` at a record whose witness (7)
differs from the live start time (8): reported dead despite the pid
being live. -/
theorem status_alive_spec_witness :
    (("a", (5 : Int), false) ∈ statusModel tblC4 (Option.some stC4)) ∧
    statusAliveRecord tblC4 recC4 = false := by
  have h := (status_alive_spec tblC4 stC4 recC4 (List.mem_singleton.mpr rfl)).1
  have e : statusAliveRecord tblC4 recC4 = false := by decide
  exact ⟨by simpa [recC4, e] using h, e⟩

/-! ## Theorems: per-attempt probe timeouts (claim C8) -/

/-- Claim C8 as stated is false: a `tcp` check with `timeout_ms` absent
probes with a 2000 ms connect timeout, not the claimed 5000 ms default. -/
theorem attempt_timeout_claim_counterexample :
    tcpDefaultHC.timeout_ms = Option.none ∧
    attemptTimeoutMs tcpDefaultHC ≠ Option.some 5000 := by decide

/-- Claim C8 (amended): when `timeout_ms` is absent the per-attempt probe
timeout defaults to 5000 ms for `http` but 2000 ms for `tcp`, while
`command` (and `none`) probes run without a per-attempt timeout. -/
theorem attempt_timeout_defaults (hc : HealthCheck)
    (h : hc.timeout_ms = Option.none) :
    (hc.kind = HealthCheckKind.http → attemptTimeoutMs hc = Option.some 5000) ∧
    (hc.kind = HealthCheckKind.tcp → attemptTimeoutMs hc = Option.some 2000) ∧
    (hc.kind = HealthCheckKind.command ∨ hc.kind = HealthCheckKind.none →
      attemptTimeoutMs hc = Option.none) := by
  refine ⟨fun hk => ?_, fun hk => ?_, fun hk => ?_⟩
  · simp [attemptTimeoutMs, hk, h]
  · simp [attemptTimeoutMs, hk, h]
  · rcases hk with hk | hk <;> simp [attemptTimeoutMs, hk]

/-- Instantiation of `attempt_timeout_defaults` at concrete checks with
`timeout_ms` absent. -/
theorem attempt_timeout_defaults_witness :
    attemptTimeoutMs httpDefaultHC = Option.some 5000 ∧
    attemptTimeoutMs tcpDefaultHC = Option.some 2000 :=
  ⟨(attempt_timeout_defaults httpDefaultHC rfl).1 rfl,
    (attempt_timeout_defaults tcpDefaultHC rfl).2.1 rfl⟩

/-! ## Theorems: the `up` loop (claims C5, C6) -/

/-- Unfolding `okSpawns` over a name whose spawn succeeds. -/
theorem okSpawns_cons_ok (lookup : String → Option Service)
    (spawnFn : Service → Except String RunningService)
    (n : String) (rest : List String) (s : Service) (rs : RunningService)
    (hl : lookup n = Option.some s) (hsp : spawnFn s = Except.ok rs) :
    okSpawns lookup spawnFn (n :: rest) = rs :: okSpawns lookup spawnFn rest := by
  simp [okSpawns, List.filterMap_cons, hl, hsp, Except.toOption]

/-- When every spawn over `names` succeeds, the `up` loop spawns each
service in order, accumulates every record, writes the full state and
returns it. -/
theorem upLoop_all_ok (spawnFn : Service → Except String RunningService)
    (healthFn : HealthCheck → Except String Unit)
    (lookup : String → Option Service) (names : List String) :
    ∀ (acc : List RunningService),
      (∀ n ∈ names, ∃ s rs, lookup n = Option.some s ∧
        spawnFn s = Except.ok rs) →
      upLoop spawnFn healthFn lookup names acc =
        ⟨acc ++ okSpawns lookup spawnFn names,
          Option.some ⟨acc ++ okSpawns lookup spawnFn names⟩,
          Except.ok ⟨acc ++ okSpawns lookup spawnFn names⟩⟩ := by
  induction names with
  | nil => intro acc _; simp [upLoop, okSpawns]
  | cons n rest ih =>
      intro acc h
      obtain ⟨s, rs, hl, hsp⟩ := h n (List.mem_cons_self n rest)
      have hrec := ih (acc ++ [rs]) (fun m hm => h m (List.mem_cons_of_mem _ hm))
      rw [okSpawns_cons_ok lookup spawnFn n rest s rs hl hsp]
      simp only [upLoop, hl, hsp]
      rw [hrec]
      simp

/-- When every spawn over `names` succeeds there is one record per
name. -/
theorem okSpawns_length (lookup : String → Option Service)
    (spawnFn : Service → Except String RunningService) (names : List String) :
    (∀ n ∈ names, ∃ s rs, lookup n = Option.some s ∧
      spawnFn s = Except.ok rs) →
    (okSpawns lookup spawnFn names).length = names.length := by
  induction names with
  | nil => intro _; rfl
  | cons n rest ih =>
      intro h
      obtain ⟨s, rs, hl, hsp⟩ := h n (List.mem_cons_self n rest)
      have ih' := ih (fun m hm => h m (List.mem_cons_of_mem _ hm))
      rw [okSpawns_cons_ok lookup spawnFn n rest s rs hl hsp]
      simp [ih']

/-- The `up` loop aborts at the first failing spawn: the earlier records
stay, nothing is written, and the spawn error is returned. -/
theorem upLoop_spawn_fail (spawnFn : Service → Except String RunningService)
    (healthFn : HealthCheck → Except String Unit)
    (lookup : String → Option Service) (pre : List String) :
    ∀ (acc : List RunningService) (n : String) (post : List String)
      (s : Service) (e : String),
      (∀ m ∈ pre, ∃ s' rs, lookup m = Option.some s' ∧
        spawnFn s' = Except.ok rs) →
      lookup n = Option.some s → spawnFn s = Except.error e →
      upLoop spawnFn healthFn lookup (pre ++ n :: post) acc =
        ⟨acc ++ okSpawns lookup spawnFn pre, Option.none, Except.error e⟩ := by
  induction pre with
  | nil =>
      intro acc n post s e _ hl hsp
      simp [upLoop, hl, hsp, okSpawns]
  | cons m rest ih =>
      intro acc n post s e h hl hsp
      obtain ⟨s', rs, hl', hsp'⟩ := h m (List.mem_cons_self m rest)
      have hrec := ih (acc ++ [rs]) n post s e
        (fun x hx => h x (List.mem_cons_of_mem _ hx)) hl hsp
      rw [okSpawns_cons_ok lookup spawnFn m rest s' rs hl' hsp']
      simp only [List.cons_append, upLoop, hl', hsp', List.append_eq]
      rw [hrec]
      simp

/-- Claim C5: if, along the resolved order, every spawn before `n`
succeeds and spawning `n`'s service fails with `e`, then `up` returns
that error, spawns nothing past `n`, and writes no state at all for the
run (`written = Option.none`): only the records of the pre-failure
prefix were spawned. -/
theorem up_spawn_error_aborts (sigma : List String)
    (spawnFn : Service → Except String RunningService)
    (healthFn : HealthCheck → Except String Unit) (cfg : WorkspaceConfig)
    (pre post : List String) (n : String) (s : Service) (e : String)
    (htopo : topo_order sigma cfg.services = Except.ok (pre ++ n :: post))
    (hpre : ∀ m ∈ pre, ∃ s' rs, byName cfg.services m = Option.some s' ∧
      spawnFn s' = Except.ok rs)
    (hn : byName cfg.services n = Option.some s)
    (he : spawnFn s = Except.error e) :
    upRun sigma spawnFn healthFn cfg =
      ⟨okSpawns (byName cfg.services) spawnFn pre, Option.none,
        Except.error e⟩ := by
  unfold upRun
  rw [htopo]
  simpa using
    upLoop_spawn_fail spawnFn healthFn (byName cfg.services) pre [] n post s e
      hpre hn he

/-- Instantiation of `up_spawn_error_aborts`: config `[a, b]`, spawn of
`b` fails; `up` keeps `a`'s record, writes nothing and surfaces the
error. -/
theorem up_spawn_error_aborts_witness :
    upRun ["a", "b"] spawnW healthW cfgW =
      ⟨[rsWa], Option.none, Except.error "spawn failed"⟩ := by
  have h := up_spawn_error_aborts ["a", "b"] spawnW healthW cfgW
    ["a"] [] "b" svcWb "spawn failed"
    (by rfl)
    (by
      intro m hm
      rw [List.mem_singleton] at hm
      subst hm
      exact ⟨svcWa, rsWa, rfl, rfl⟩)
    (by rfl) (by rfl)
  simpa using h

/-- Claim C6: the result of every declared health check is discarded, so
for any health oracle — including one on which every check times out —
`up` spawns every service of the resolved order, includes each one in
the accumulated state, writes that full state and returns it. -/
theorem up_health_failure_not_fatal (sigma : List String)
    (spawnFn : Service → Except String RunningService)
    (cfg : WorkspaceConfig) (order : List String)
    (htopo : topo_order sigma cfg.services = Except.ok order)
    (hok : ∀ n ∈ order, ∃ s rs, byName cfg.services n = Option.some s ∧
      spawnFn s = Except.ok rs) :
    ∀ healthFn : HealthCheck → Except String Unit,
      upRun sigma spawnFn healthFn cfg =
        ⟨okSpawns (byName cfg.services) spawnFn order,
          Option.some ⟨okSpawns (byName cfg.services) spawnFn order⟩,
          Except.ok ⟨okSpawns (byName cfg.services) spawnFn order⟩⟩ ∧
      (okSpawns (byName cfg.services) spawnFn order).length = order.length := by
  intro healthFn
  constructor
  · unfold upRun
    rw [htopo]
    simpa using upLoop_all_ok spawnFn healthFn (byName cfg.services) order [] hok
  · exact okSpawns_length (byName cfg.services) spawnFn order hok

/-- Instantiation of `up_health_failure_not_fatal` at the all-failing
health oracle `healthW`: both services spawn and the full two-entry
state is written and returned. -/
theorem up_health_failure_not_fatal_witness :
    upRun ["a", "b"] spawnWok healthW cfgW =
      ⟨[rsWa, rsWb], Option.some ⟨[rsWa, rsWb]⟩, Except.ok ⟨[rsWa, rsWb]⟩⟩ := by
  have h := (up_health_failure_not_fatal ["a", "b"] spawnWok cfgW ["a", "b"]
    (by rfl)
    (by
      intro n hn
      rcases List.mem_cons.mp hn with hn | hn
      · subst hn; exact ⟨svcWa, rsWa, rfl, rfl⟩
      · rw [List.mem_singleton] at hn
        subst hn
        exact ⟨svcWb, rsWb, rfl, rfl⟩)
    healthW).1
  simpa using h

/-! ## Theorems: health-check retry policy (claim C7) -/

theorem prefixElapsed_succ (dur : Nat → Nat) (i : Nat) :
    prefixElapsed dur (i + 1) = prefixElapsed dur i + (dur i + 300) := by
  simp [prefixElapsed, List.range_succ]

/-- Behaviour of the fuelled retry loop, by induction on the remaining
iteration count: the attempt counter advances by at most `rem`, success
happens exactly at the first succeeding attempt, failure means the
retries were exhausted or the wall-clock ceiling was crossed, and no
attempt after the first starts once the ceiling is exceeded. -/
theorem wrSteps_spec (att : Nat → Bool) (dur : Nat → Nat) (t2 : Nat) :
    ∀ (rem i elapsed : Nat),
      elapsed = prefixElapsed dur i →
      (∀ j, j < i → att j = false) →
      i ≤ (wrSteps att dur t2 rem i elapsed).2 ∧
      (wrSteps att dur t2 rem i elapsed).2 ≤ i + rem ∧
      ((wrSteps att dur t2 rem i elapsed).1 = true →
        ∃ k, (wrSteps att dur t2 rem i elapsed).2 = k + 1 ∧ att k = true ∧
          ∀ j, j < k → att j = false) ∧
      ((wrSteps att dur t2 rem i elapsed).1 = false →
        (∀ j, j < (wrSteps att dur t2 rem i elapsed).2 → att j = false) ∧
        ((wrSteps att dur t2 rem i elapsed).2 = i + rem ∨
          t2 < prefixElapsed dur (wrSteps att dur t2 rem i elapsed).2)) ∧
      (∀ k, i < k → k < (wrSteps att dur t2 rem i elapsed).2 →
        prefixElapsed dur k ≤ t2) := by
  intro rem
  induction rem with
  | zero =>
      intro i elapsed he hprev
      refine ⟨le_refl _, Nat.le_add_right _ _, ?_, ?_, ?_⟩
      · intro hcontra; exact absurd hcontra (by simp [wrSteps])
      · intro _; exact ⟨fun j hj => hprev j hj, Or.inl rfl⟩
      · intro k hk hk'
        simp only [wrSteps] at hk'
        omega
  | succ rem ih =>
      intro i elapsed he hprev
      by_cases hai : att i = true
      · refine ⟨?_, ?_, ?_, ?_, ?_⟩ <;> simp only [wrSteps, hai, if_true]
        · exact Nat.le_succ i
        · omega
        · intro _; exact ⟨i, rfl, hai, hprev⟩
        · intro hcontra; simp at hcontra
        · intro k hk hk'; omega
      · simp only [Bool.not_eq_true] at hai
        have he2 : elapsed + dur i + 300 = prefixElapsed dur (i + 1) := by
          rw [prefixElapsed_succ, he]; omega
        by_cases hc : t2 < elapsed + dur i + 300
        · refine ⟨?_, ?_, ?_, ?_, ?_⟩ <;>
            simp only [wrSteps, hai, Bool.false_eq_true, if_false, hc, if_true]
          · exact Nat.le_succ i
          · omega
          · intro hcontra; simp at hcontra
          · intro _
            refine ⟨?_, Or.inr ?_⟩
            · intro j hj
              rcases Nat.lt_succ_iff_lt_or_eq.mp hj with hj | hj
              · exact hprev j hj
              · subst hj; exact hai
            · rw [← he2]; exact hc
          · intro k hk hk'; omega
        · have hprev' : ∀ j, j < i + 1 → att j = false := by
            intro j hj
            rcases Nat.lt_succ_iff_lt_or_eq.mp hj with hj | hj
            · exact hprev j hj
            · subst hj; exact hai
          have hrec := ih (i + 1) (elapsed + dur i + 300) he2 hprev'
          obtain ⟨h1, h2, h3, h4, h5⟩ := hrec
          have hshape :
              wrSteps att dur t2 (rem + 1) i elapsed =
                wrSteps att dur t2 rem (i + 1) (elapsed + dur i + 300) := by
            simp only [wrSteps, hai, Bool.false_eq_true, if_false, hc, if_true]
          rw [hshape]
          refine ⟨by omega, by omega, h3, ?_, ?_⟩
          · intro hf
            obtain ⟨ha, hb⟩ := h4 hf
            exact ⟨ha, by omega⟩
          · intro k hk hk'
            rcases Nat.lt_or_ge (i + 1) k with h | h
            · exact h5 k h hk'
            · have : k = i + 1 := by omega
              subst this
              rw [← he2]
              omega

/-- Claim C7 as stated is false: with `timeout_ms = 2 ^ 63` the
program's ceiling `timeout_ms * 2` wraps to 0 in `u64`, so `wait_ready`
fails after a single attempt although the retries (10) are not exhausted
and the elapsed time (300 ms) never exceeded the claimed ceiling of
`2 × timeout_ms`. -/
theorem wait_ready_ceiling_claim_counterexample :
    (wait_ready_model hcBig attFail durZero).1 = false ∧
    (wait_ready_model hcBig attFail durZero).2 = 1 ∧
    hcBig.retries.getD 10 = 10 ∧
    prefixElapsed durZero (wait_ready_model hcBig attFail durZero).2 <
      hcBig.timeout_ms.getD 5000 * 2 := by
  decide

/-- Claim C7 (amended): `wait_ready` makes at most `retries` attempts
(default 10), stops at the first successful attempt, and otherwise fails
because either the retries were exhausted or the elapsed time — each
failed attempt's duration plus its fixed 300 ms sleep — crossed the
ceiling `timeout_ms * 2` computed in wrapping `u64` arithmetic, i.e.
`2 · timeout_ms mod 2 ^ 64`, which equals `2 · timeout_ms` for every
`timeout_ms < 2 ^ 63` (in particular for the 5000 default); once that
ceiling is crossed no further attempt starts. -/
theorem wait_ready_policy (hc : HealthCheck) (att : Nat → Bool)
    (dur : Nat → Nat) :
    (wait_ready_model hc att dur).2 ≤ hc.retries.getD 10 ∧
    ((wait_ready_model hc att dur).1 = true →
      ∃ k, (wait_ready_model hc att dur).2 = k + 1 ∧ att k = true ∧
        ∀ j, j < k → att j = false) ∧
    ((wait_ready_model hc att dur).1 = false →
      (∀ j, j < (wait_ready_model hc att dur).2 → att j = false) ∧
      ((wait_ready_model hc att dur).2 = hc.retries.getD 10 ∨
        hc.timeout_ms.getD 5000 * 2 % 2 ^ 64 <
          prefixElapsed dur (wait_ready_model hc att dur).2)) ∧
    (∀ k, 0 < k → k < (wait_ready_model hc att dur).2 →
      prefixElapsed dur k ≤ hc.timeout_ms.getD 5000 * 2 % 2 ^ 64) ∧
    (hc.timeout_ms.getD 5000 < 2 ^ 63 →
      hc.timeout_ms.getD 5000 * 2 % 2 ^ 64 = hc.timeout_ms.getD 5000 * 2) := by
  have h := wrSteps_spec att dur (hc.timeout_ms.getD 5000 * 2 % 2 ^ 64)
    (hc.retries.getD 10) 0 0 (by simp [prefixElapsed]) (by omega)
  obtain ⟨-, h2, h3, h4, h5⟩ := h
  refine ⟨by simpa using h2, h3, by simpa using h4, h5, fun hsmall => ?_⟩
  exact Nat.mod_eq_of_lt (by omega)

/-- Instantiation of `wait_ready_policy`: with 3 retries and only the
second attempt succeeding, the loop stops after exactly two attempts,
the first having failed. -/
theorem wait_ready_policy_witness :
    ∃ k, (wait_ready_model hcW attW durW).2 = k + 1 ∧ attW k = true ∧
      ∀ j, j < k → attW j = false :=
  (wait_ready_policy hcW attW durW).2.1 (by decide)

/-! ## Theorems: counting edges for Kahn's algorithm -/

theorem consumed_append (services : List Service) (L1 L2 : List String)
    (n : String) :
    consumed services (L1 ++ L2) n =
      consumed services L1 n + consumed services L2 n := by
  simp [consumed]

theorem piece_count (d n : String) (s : Service) :
    (((depsOf s).filter (fun x => x == d)).map (fun _ => s.name)).count n =
      if s.name == n then (depsOf s).count d else 0 := by
  rw [List.map_const', List.count_replicate]
  have hlen : ((depsOf s).filter (fun x => x == d)).length =
      (depsOf s).count d := by
    rw [List.count, List.countP_eq_length_filter]
  rw [hlen]

theorem adj0_count (d n : String) : ∀ (services : List Service),
    (adj0 services d).count n =
      ((services.filter (fun s => s.name == n)).map
        (fun s => (depsOf s).count d)).sum
  | [] => rfl
  | s :: rest => by
      have ih := adj0_count d n rest
      have hsplit : (adj0 (s :: rest) d).count n =
          (((depsOf s).filter (fun x => x == d)).map (fun _ => s.name)).count n
            + (adj0 rest d).count n := by
        simp [adj0, List.count_append]
      rw [hsplit, piece_count, ih]
      by_cases h : s.name = n
      · simp [List.filter_cons, h]
      · simp [List.filter_cons, h]

theorem mem_allDeps_of_mem_deps (services : List Service) (s : Service)
    (x : String) (hs : s ∈ services) (hx : x ∈ depsOf s) :
    x ∈ allDeps services := by
  rw [allDeps, List.mem_dedup, List.mem_flatten]
  exact ⟨depsOf s, List.mem_map_of_mem depsOf hs, hx⟩

theorem adj0_count_pos_mem_allDeps (services : List Service) (d n : String)
    (h : 0 < (adj0 services d).count n) : d ∈ allDeps services := by
  have hn : n ∈ adj0 services d := List.count_pos_iff.mp h
  rw [adj0, List.mem_flatten] at hn
  obtain ⟨piece, hpiece, hnp⟩ := hn
  rw [List.mem_map] at hpiece
  obtain ⟨s, hs, rfl⟩ := hpiece
  rw [List.mem_map] at hnp
  obtain ⟨y, hy, -⟩ := hnp
  rw [List.mem_filter] at hy
  have : y = d := by simpa using hy.2
  subst this
  exact mem_allDeps_of_mem_deps services s y hs hy.1

theorem finsetSum_listSum_swap (F : Finset String) (l : List Service)
    (g : Service → String → Nat) :
    ∑ d ∈ F, (l.map (fun s => g s d)).sum =
      (l.map (fun s => ∑ d ∈ F, g s d)).sum := by
  induction l with
  | nil => simp
  | cons s rest ih => simp [Finset.sum_add_distrib, ih]

theorem count_sum_allDeps (services : List Service) (l : List String)
    (hsub : ∀ x ∈ l, x ∈ allDeps services) :
    ∑ d ∈ (allDeps services).toFinset, l.count d = l.length := by
  have h1 : l.toFinset ⊆ (allDeps services).toFinset := by
    intro x hx
    exact List.mem_toFinset.mpr (hsub x (List.mem_toFinset.mp hx))
  have h2 : ∀ x ∈ (allDeps services).toFinset, x ∉ l.toFinset →
      l.count x = 0 := fun x _ hx =>
    List.count_eq_zero.mpr (fun hmem => hx (List.mem_toFinset.mpr hmem))
  rw [← Finset.sum_subset h1 h2, List.sum_toFinset_count_eq_length]

theorem sum_adj0_count (services : List Service) (n : String) :
    ∑ d ∈ (allDeps services).toFinset, (adj0 services d).count n =
      indeg0 services n := by
  have h1 : ∑ d ∈ (allDeps services).toFinset, (adj0 services d).count n =
      ∑ d ∈ (allDeps services).toFinset,
        ((services.filter (fun s => s.name == n)).map
          (fun s => (depsOf s).count d)).sum :=
    Finset.sum_congr rfl (fun d _ => adj0_count d n services)
  rw [h1, finsetSum_listSum_swap]
  rw [indeg0]
  congr 1
  apply List.map_congr_left
  intro s hs
  apply count_sum_allDeps
  intro x hx
  exact mem_allDeps_of_mem_deps services s x (List.mem_of_mem_filter hs) hx

theorem consumed_eq_finset_sum (services : List Service) (L : List String)
    (hL : L.Nodup) (n : String) :
    consumed services L n = ∑ u ∈ L.toFinset, (adj0 services u).count n := by
  rw [consumed, ← List.sum_toFinset _ hL]

theorem consumed_le_indeg0 (services : List Service) (L : List String)
    (hL : L.Nodup) (n : String) :
    consumed services L n ≤ indeg0 services n := by
  rw [consumed_eq_finset_sum services L hL, ← sum_adj0_count services n]
  exact Finset.sum_le_sum_of_ne_zero (fun x _ hx =>
    List.mem_toFinset.mpr
      (adj0_count_pos_mem_allDeps services x n (Nat.pos_of_ne_zero hx)))

theorem consumed_complete_sources (services : List Service) (L : List String)
    (hL : L.Nodup) (n : String)
    (hc : consumed services L n = indeg0 services n)
    (d : String) (hd : 0 < (adj0 services d).count n) : d ∈ L := by
  by_contra hdL
  have hmem : d ∈ (allDeps services).toFinset :=
    List.mem_toFinset.mpr (adj0_count_pos_mem_allDeps services d n hd)
  have hle : consumed services L n ≤
      ∑ x ∈ ((allDeps services).toFinset).erase d, (adj0 services x).count n := by
    rw [consumed_eq_finset_sum services L hL]
    refine Finset.sum_le_sum_of_ne_zero (fun x hx hx0 => ?_)
    refine Finset.mem_erase.mpr ⟨?_, List.mem_toFinset.mpr
      (adj0_count_pos_mem_allDeps services x n (Nat.pos_of_ne_zero hx0))⟩
    intro hxd
    exact hdL (hxd ▸ List.mem_toFinset.mp hx)
  have hsplit : (∑ x ∈ ((allDeps services).toFinset).erase d,
      (adj0 services x).count n) + (adj0 services d).count n =
      indeg0 services n := by
    rw [Finset.sum_erase_add _ _ hmem, sum_adj0_count]
  omega

theorem consumed_all_sources_complete (services : List Service)
    (L : List String) (hL : L.Nodup) (n : String)
    (hall : ∀ d, 0 < (adj0 services d).count n → d ∈ L) :
    consumed services L n = indeg0 services n := by
  rw [consumed_eq_finset_sum services L hL, ← sum_adj0_count services n]
  apply le_antisymm
  · exact Finset.sum_le_sum_of_ne_zero (fun x _ hx =>
      List.mem_toFinset.mpr
        (adj0_count_pos_mem_allDeps services x n (Nat.pos_of_ne_zero hx)))
  · exact Finset.sum_le_sum_of_ne_zero (fun x _ hx =>
      List.mem_toFinset.mpr (hall x (Nat.pos_of_ne_zero hx)))

/-! ## Theorems: Kahn invariant maintenance -/

theorem consumed_snoc (services : List Service) (res : List String)
    (u n : String) :
    consumed services (res ++ [u]) n =
      consumed services res n + (adj0 services u).count n := by
  simp [consumed]

theorem count_snoc_ne (l : List String) (v n : String) (h : n ≠ v) :
    (l ++ [v]).count n = l.count n := by
  simp [List.count_append, List.count_singleton', h]

theorem count_snoc_self (l : List String) (v : String) :
    (l ++ [v]).count v = l.count v + 1 := by
  simp

theorem nodup_snoc (l : List String) (v : String) :
    (l ++ [v]).Nodup ↔ l.Nodup ∧ v ∉ l := by
  simp [List.nodup_append]

/-- One relaxation step preserves the inner invariant. -/
theorem relax_step (services : List Service) (u : String) (res : List String)
    (p : List String) (st : (String → Nat) × List String) (v : String)
    (hcnt : (p ++ [v]).count v ≤ (adj0 services u).count v)
    (inv : RelaxInv services u res p st) :
    RelaxInv services u res (p ++ [v]) (relax (namesKeys services) st v) := by
  by_cases hv : v ∈ namesKeys services
  · have hnodru : (res ++ [u]).Nodup := inv.nodup.of_append_left
    have hpcv := inv.degLe v hv
    have hdeq := inv.degEq v hv
    have hbound : consumed services res v + (p.count v + 1) ≤
        indeg0 services v := by
      have h1 := count_snoc_self p v
      have h3 := consumed_snoc services res u v
      have h4 := consumed_le_indeg0 services (res ++ [u]) hnodru v
      omega
    by_cases he : st.1 v = 1
    · -- the entry reaches zero: `v` is enqueued
      have hrelax : relax (namesKeys services) st v =
          ((fun n => if n = v then st.1 v - 1 else st.1 n), st.2 ++ [v]) := by
        rw [relax, if_pos hv, if_pos he]
      have hcomplete : consumed services res v + (p.count v + 1) =
          indeg0 services v := by omega
      have hvnot : v ∉ (res ++ [u]) ++ st.2 := by
        intro hmem
        have := (inv.memIff v hv).mp hmem
        omega
      rw [hrelax]
      refine ⟨?_, ?_, ?_, ?_, ?_⟩
      · show ((res ++ [u]) ++ (st.2 ++ [v])).Nodup
        rw [← List.append_assoc, nodup_snoc]
        exact ⟨inv.nodup, hvnot⟩
      · intro n hn
        rw [← List.append_assoc] at hn
        rcases List.mem_append.mp hn with hn | hn
        · exact inv.subk n hn
        · rw [List.mem_singleton] at hn
          subst hn
          exact hv
      · intro n hn
        by_cases hnv : n = v
        · subst hnv
          rw [count_snoc_self]
          omega
        · rw [count_snoc_ne p v n hnv]
          exact inv.degLe n hn
      · intro n hn
        by_cases hnv : n = v
        · subst hnv
          simp only [if_pos]
          rw [count_snoc_self]
          omega
        · simp only [if_neg hnv]
          rw [count_snoc_ne p v n hnv]
          exact inv.degEq n hn
      · intro n hn
        by_cases hnv : n = v
        · subst hnv
          constructor
          · intro _
            rw [count_snoc_self]
            exact hcomplete
          · intro _
            simp
        · rw [count_snoc_ne p v n hnv]
          have hmem : n ∈ (res ++ [u]) ++ (st.2 ++ [v]) ↔
              n ∈ (res ++ [u]) ++ st.2 := by
            simp only [List.mem_append, List.mem_singleton]
            constructor
            · rintro (h | h | h)
              · exact Or.inl h
              · exact Or.inr h
              · exact absurd h hnv
            · rintro (h | h)
              · exact Or.inl h
              · exact Or.inr (Or.inl h)
          rw [hmem]
          exact inv.memIff n hn
    · -- the entry stays positive: no enqueue
      have hrelax : relax (namesKeys services) st v =
          ((fun n => if n = v then st.1 v - 1 else st.1 n), st.2) := by
        rw [relax, if_pos hv, if_neg he]
      have hge2 : consumed services res v + (p.count v + 1) + 1 ≤
          indeg0 services v := by omega
      rw [hrelax]
      refine ⟨inv.nodup, inv.subk, ?_, ?_, ?_⟩
      · intro n hn
        by_cases hnv : n = v
        · subst hnv
          rw [count_snoc_self]
          omega
        · rw [count_snoc_ne p v n hnv]
          exact inv.degLe n hn
      · intro n hn
        by_cases hnv : n = v
        · subst hnv
          simp only [if_pos]
          rw [count_snoc_self]
          omega
        · simp only [if_neg hnv]
          rw [count_snoc_ne p v n hnv]
          exact inv.degEq n hn
      · intro n hn
        by_cases hnv : n = v
        · subst hnv
          rw [count_snoc_self]
          constructor
          · intro hmem
            have := (inv.memIff n hv).mp hmem
            omega
          · intro hc
            omega
        · rw [count_snoc_ne p v n hnv]
          exact inv.memIff n hn
  · have hrelax : relax (namesKeys services) st v = st := by
      rw [relax, if_neg hv]
    rw [hrelax]
    refine ⟨inv.nodup, inv.subk, ?_, ?_, ?_⟩
    · intro n hn
      have hnv : n ≠ v := fun e => hv (e ▸ hn)
      rw [count_snoc_ne p v n hnv]
      exact inv.degLe n hn
    · intro n hn
      have hnv : n ≠ v := fun e => hv (e ▸ hn)
      rw [count_snoc_ne p v n hnv]
      exact inv.degEq n hn
    · intro n hn
      have hnv : n ≠ v := fun e => hv (e ▸ hn)
      rw [count_snoc_ne p v n hnv]
      exact inv.memIff n hn

/-- Folding the relaxation over the remaining neighbours preserves the
inner invariant. -/
theorem relax_fold (services : List Service) (u : String) (res : List String) :
    ∀ (l p : List String) (st : (String → Nat) × List String),
      (∀ n, p.count n + l.count n ≤ (adj0 services u).count n) →
      RelaxInv services u res p st →
      RelaxInv services u res (p ++ l)
        (l.foldl (relax (namesKeys services)) st) := by
  intro l
  induction l with
  | nil => intro p st _ inv; simpa using inv
  | cons v l' ih =>
      intro p st hcnt inv
      have hcv : (p ++ [v]).count v ≤ (adj0 services u).count v := by
        have h1 := hcnt v
        have h2 : (v :: l').count v = l'.count v + 1 := by simp
        have h3 := count_snoc_self p v
        omega
      have hstep := relax_step services u res p st v hcv inv
      have h2 : ∀ n, (p ++ [v]).count n + l'.count n ≤
          (adj0 services u).count n := by
        intro n
        have h1 := hcnt n
        by_cases hnv : n = v
        · subst hnv
          have h2 : (n :: l').count n = l'.count n + 1 := by simp
          have h3 := count_snoc_self p n
          omega
        · have h2 : (v :: l').count n = l'.count n := by
            simp [List.count_cons, hnv]
          have h3 := count_snoc_ne p v n hnv
          omega
      have := ih (p ++ [v]) (relax (namesKeys services) st v) h2 hstep
      rw [List.foldl_cons]
      rw [show p ++ v :: l' = (p ++ [v]) ++ l' from by simp]
      exact this

/-- Dequeuing `u` and relaxing all of its out-neighbours preserves the
outer invariant. -/
theorem kahn_step (services : List Service) (u : String) (q : List String)
    (indeg : String → Nat) (res : List String)
    (inv : KahnInv services (u :: q) indeg res) :
    KahnInv services
      ((adj0 services u).foldl (relax (namesKeys services)) (indeg, q)).2
      ((adj0 services u).foldl (relax (namesKeys services)) (indeg, q)).1
      (res ++ [u]) := by
  have hrearr : res ++ u :: q = (res ++ [u]) ++ q := by simp
  have hin : RelaxInv services u res [] (indeg, q) := by
    refine ⟨?_, ?_, ?_, ?_, ?_⟩
    · rw [← hrearr]; exact inv.nodup
    · intro n hn; rw [← hrearr] at hn; exact inv.subk n hn
    · intro n hn; simpa using inv.degLe n hn
    · intro n hn; simpa using inv.degEq n hn
    · intro n hn; rw [← hrearr]; simpa using inv.memIff n hn
  have hcnt0 : ∀ n, ([] : List String).count n + (adj0 services u).count n ≤
      (adj0 services u).count n := by simp
  have hfold := relax_fold services u res (adj0 services u) [] (indeg, q)
    hcnt0 hin
  rw [List.nil_append] at hfold
  have hures : u ∈ res ++ u :: q := by simp
  have hukey : u ∈ namesKeys services := inv.subk u hures
  have hucomplete : consumed services res u = indeg0 services u :=
    (inv.memIff u hukey).mp hures
  have hnodres : res.Nodup := (hfold.nodup.of_append_left).of_append_left
  refine ⟨hfold.nodup, hfold.subk, ?_, ?_, ?_, ?_⟩
  · intro n hn
    rw [consumed_snoc]
    exact hfold.degLe n hn
  · intro n hn
    rw [consumed_snoc]
    exact hfold.degEq n hn
  · intro n hn
    rw [consumed_snoc]
    exact hfold.memIff n hn
  · intro i hi d hd
    rcases Nat.lt_or_ge i res.length with hilt | hige
    · have hget : (res ++ [u]).get ⟨i, hi⟩ = res.get ⟨i, hilt⟩ := by
        simp [List.getElem_append_left hilt]
      rw [hget] at hd
      have hmem := inv.posBefore i hilt d hd
      rw [List.take_append_of_le_length (le_of_lt hilt)]
      exact hmem
    · have hieq : i = res.length := by
        have h2 := hi
        simp only [List.length_append, List.length_singleton] at h2
        omega
      subst hieq
      have hget : (res ++ [u]).get ⟨res.length, hi⟩ = u := by simp
      rw [hget] at hd
      have hd2 := consumed_complete_sources services res hnodres u
        hucomplete d hd
      rw [List.take_left]
      exact hd2

/-- Running the fuelled loop from an invariant state with enough fuel
empties the queue while preserving the invariant. -/
theorem kahnLoop_spec (services : List Service) :
    ∀ (fuel : Nat) (q : List String) (indeg : String → Nat)
      (res : List String),
      KahnInv services q indeg res →
      (namesKeys services).length < res.length + fuel →
      ∃ resq indegF,
        kahnLoop (namesKeys services) (adj0 services) fuel q indeg res =
          res ++ resq ∧
        KahnInv services [] indegF (res ++ resq) := by
  intro fuel
  induction fuel with
  | zero =>
      intro q indeg res inv hfuel
      exfalso
      have hsub : res ⊆ namesKeys services := fun x hx =>
        inv.subk x (List.mem_append_left _ hx)
      have hnod : res.Nodup := inv.nodup.of_append_left
      have := (List.subperm_of_subset hnod hsub).length_le
      omega
  | succ fuel ih =>
      intro q indeg res inv hfuel
      cases q with
      | nil =>
          exact ⟨[], indeg, by simp [kahnLoop], by simpa using inv⟩
      | cons u q' =>
          have hstep := kahn_step services u q' indeg res inv
          have hrec := ih _ _ (res ++ [u]) hstep
            (by simp only [List.length_append, List.length_singleton]; omega)
          obtain ⟨resq, indegF, heq, hinv⟩ := hrec
          refine ⟨[u] ++ resq, indegF, ?_, ?_⟩
          · simp only [kahnLoop]
            rw [heq, List.append_assoc]
          · rw [← List.append_assoc]
            exact hinv

/-- The seeded initial state satisfies the outer invariant. -/
theorem kahn_init (services : List Service) (sigma : List String)
    (hperm : sigma.Perm (namesKeys services)) :
    KahnInv services (sigma.filter (fun n => indeg0 services n == 0))
      (indeg0 services) [] := by
  have hsignodup : sigma.Nodup :=
    (hperm.nodup_iff).mpr (List.nodup_dedup _)
  refine ⟨?_, ?_, ?_, ?_, ?_, ?_⟩
  · simpa using hsignodup.filter _
  · intro n hn
    rw [List.nil_append] at hn
    exact (hperm.mem_iff).mp (List.mem_of_mem_filter hn)
  · intro n _
    simp [consumed]
  · intro n _
    simp [consumed]
  · intro n hn
    rw [List.nil_append]
    constructor
    · intro hmem
      have hpred := List.of_mem_filter hmem
      have h0 : indeg0 services n = 0 := by simpa using hpred
      simp [consumed, h0]
    · intro hc
      have h0 : indeg0 services n = 0 := by simpa [consumed] using hc.symm
      exact List.mem_filter.mpr ⟨(hperm.mem_iff).mpr hn, by simp [h0]⟩
  · intro i hi
    simp at hi

theorem mem_take_get (l : List String) (k : Nat) (d : String)
    (h : d ∈ l.take k) :
    ∃ i : Fin l.length, i.1 < k ∧ l.get i = d := by
  obtain ⟨i', hi'⟩ := List.mem_iff_get.mp h
  have hb1 : (l.take k).length ≤ k := by
    rw [List.length_take]; omega
  have hb2 : (l.take k).length ≤ l.length := by
    rw [List.length_take]; omega
  have h1 : i'.1 < k := lt_of_lt_of_le i'.2 hb1
  have h2 : i'.1 < l.length := lt_of_lt_of_le i'.2 hb2
  refine ⟨⟨i'.1, h2⟩, h1, ?_⟩
  rw [← hi']
  simp [List.get_eq_getElem, List.getElem_take]

/-- Soundness of `topo_order`: a successful resolution is a permutation
of the service names in which every dependency occurs strictly before
its dependent. -/
theorem topo_ok_spec (sigma : List String) (services : List Service)
    (res : List String) (hperm : sigma.Perm (namesKeys services))
    (h : topo_order sigma services = Except.ok res) :
    res.Perm (namesKeys services) ∧
      ∀ s ∈ services, ∀ d ∈ depsOf s,
        ∃ i j : Fin res.length, i.1 < j.1 ∧ res.get i = d ∧
          res.get j = s.name := by
  have hinit := kahn_init services sigma hperm
  have hfuel : (namesKeys services).length <
      ([] : List String).length + topoFuel services := by
    have h1 : (namesKeys services).length ≤ (serviceNames services).length :=
      (List.dedup_sublist _).length_le
    have h2 : (serviceNames services).length = services.length := by
      simp [serviceNames]
    simp only [List.length_nil, topoFuel]
    omega
  obtain ⟨resq, indegF, heq, hinv⟩ :=
    kahnLoop_spec services (topoFuel services) _ _ [] hinit hfuel
  rw [List.nil_append] at heq hinv
  simp only [topo_order] at h
  rw [heq] at h
  split at h
  case isFalse => simp at h
  case isTrue hlen =>
    have hres : resq = res := by
      simpa using h
    subst hres
    have hnod : resq.Nodup := by
      have := hinv.nodup
      simpa using this
    have hsub : resq ⊆ namesKeys services := fun x hx =>
      hinv.subk x (by simpa using hx)
    have hperm2 : resq.Perm (namesKeys services) :=
      (List.subperm_of_subset hnod hsub).perm_of_length_le (le_of_eq hlen.symm)
    refine ⟨hperm2, ?_⟩
    intro s hs d hd
    have hskey : s.name ∈ namesKeys services := by
      rw [namesKeys, List.mem_dedup]
      exact List.mem_map_of_mem (fun t => t.name) hs
    have hsres : s.name ∈ resq := (hperm2.mem_iff).mpr hskey
    obtain ⟨j, hj⟩ := List.mem_iff_get.mp hsres
    have hcomplete : consumed services resq s.name =
        indeg0 services s.name :=
      (hinv.memIff s.name hskey).mp (by simpa using hsres)
    have hedge : 0 < (adj0 services d).count s.name := by
      rw [adj0_count]
      have hsf : s ∈ services.filter (fun t => t.name == s.name) :=
        List.mem_filter.mpr ⟨hs, by simp⟩
      have hterm : 0 < (depsOf s).count d := List.count_pos_iff.mpr hd
      have hmem : (depsOf s).count d ∈
          (services.filter (fun t => t.name == s.name)).map
            (fun t => (depsOf t).count d) :=
        List.mem_map_of_mem (fun t => (depsOf t).count d) hsf
      have := List.single_le_sum (fun (x : Nat) _ => Nat.zero_le x) _ hmem
      omega
    have hedge' : 0 < (adj0 services d).count (resq.get ⟨j.1, j.2⟩) := by
      rw [show resq.get ⟨j.1, j.2⟩ = resq.get j from rfl, hj]
      exact hedge
    have htake := hinv.posBefore j.1 j.2 d hedge'
    obtain ⟨i, hik, hget⟩ := mem_take_get resq j.1 d htake
    exact ⟨i, j, hik, hget, hj⟩

/-! ## Theorems: cycles, completeness, and the resolution claims -/

/-- Strict-position transitivity: an occurrence-before relation on a
duplicate-free list composes. -/
theorem transGen_before (res : List String) (hnod : res.Nodup)
    (r : String → String → Prop)
    (hsub : ∀ a b, r a b → ∃ i j : Fin res.length, i.1 < j.1 ∧
      res.get i = b ∧ res.get j = a) :
    ∀ a b, Relation.TransGen r a b →
      ∃ i j : Fin res.length, i.1 < j.1 ∧ res.get i = b ∧ res.get j = a := by
  intro a b h
  induction h with
  | single h1 => exact hsub _ _ h1
  | tail _ hbc ih =>
      obtain ⟨i, j, hij, hb, ha⟩ := ih
      obtain ⟨i', j', hij', hc, hb'⟩ := hsub _ _ hbc
      have hji : j' = i := hnod.get_inj_iff.mp (hb'.trans hb.symm)
      refine ⟨i', j, ?_, hc, ha⟩
      rw [hji] at hij'
      omega

/-- A successful resolution certifies that the graph has no cycle. -/
theorem no_cycle_of_topo_ok (sigma : List String) (services : List Service)
    (res : List String) (hperm : sigma.Perm (namesKeys services))
    (h : topo_order sigma services = Except.ok res) :
    ¬ hasCycle services := by
  obtain ⟨hperm2, horder⟩ := topo_ok_spec sigma services res hperm h
  have hnod : res.Nodup := (hperm2.nodup_iff).mpr (List.nodup_dedup _)
  rintro ⟨n, hn⟩
  have hsub : ∀ a b, dependsOnRel services a b →
      ∃ i j : Fin res.length, i.1 < j.1 ∧ res.get i = b ∧ res.get j = a := by
    rintro a b ⟨s, hs, rfl, hd⟩
    exact horder s hs b hd
  obtain ⟨i, j, hij, hi, hj⟩ := transGen_before res hnod _ hsub n n hn
  have : i = j := hnod.get_inj_iff.mp (hi.trans hj.symm)
  rw [this] at hij
  omega

/-- The only error `topo_order` produces is the cycle message. -/
theorem topo_error_msg (sigma : List String) (services : List Service)
    (e : String) (h : topo_order sigma services = Except.error e) :
    e = "cycle in dependencies" := by
  simp only [topo_order] at h
  split at h
  · simp at h
  · have := h.symm
    simpa using this

theorem exists_pos_of_sum_pos (l : List Service) (f : Service → Nat)
    (h : 0 < (l.map f).sum) : ∃ a ∈ l, 0 < f a := by
  induction l with
  | nil => simp at h
  | cons a l' ih =>
      rw [List.map_cons, List.sum_cons] at h
      rcases Nat.eq_zero_or_pos (f a) with h0 | h0
      · rw [h0, Nat.zero_add] at h
        obtain ⟨b, hb, hfb⟩ := ih h
        exact ⟨b, List.mem_cons_of_mem a hb, hfb⟩
      · exact ⟨a, List.mem_cons_self a l', h0⟩

/-- Completeness of `topo_order`: if every dependency is declared and
the graph is acyclic, resolution succeeds. -/
theorem topo_complete (sigma : List String) (services : List Service)
    (hperm : sigma.Perm (namesKeys services))
    (hclosed : ∀ s ∈ services, ∀ d ∈ depsOf s, d ∈ serviceNames services)
    (hacyclic : ¬ hasCycle services) :
    ∃ res, topo_order sigma services = Except.ok res := by
  have hinit := kahn_init services sigma hperm
  have hfuel : (namesKeys services).length <
      ([] : List String).length + topoFuel services := by
    have h1 : (namesKeys services).length ≤ (serviceNames services).length :=
      (List.dedup_sublist _).length_le
    have h2 : (serviceNames services).length = services.length := by
      simp [serviceNames]
    simp only [List.length_nil, topoFuel]
    omega
  obtain ⟨resq, indegF, heq, hinv⟩ :=
    kahnLoop_spec services (topoFuel services) _ _ [] hinit hfuel
  rw [List.nil_append] at heq hinv
  have hnod : resq.Nodup := by simpa using hinv.nodup
  have hsub : resq ⊆ namesKeys services := fun x hx =>
    hinv.subk x (by simpa using hx)
  have hlen_le : resq.length ≤ (namesKeys services).length :=
    (List.subperm_of_subset hnod hsub).length_le
  have hall : ∀ m ∈ namesKeys services, m ∈ resq := by
    by_contra hnot
    push_neg at hnot
    obtain ⟨m0, hm0k, hm0L⟩ := hnot
    have hmemR : ∀ x, x ∈ (namesKeys services).toFinset \ resq.toFinset ↔
        x ∈ namesKeys services ∧ x ∉ resq := by
      intro x
      simp [Finset.mem_sdiff, List.mem_toFinset]
    have hR0 : m0 ∈ (namesKeys services).toFinset \ resq.toFinset :=
      (hmemR m0).mpr ⟨hm0k, hm0L⟩
    have hstep : ∀ x ∈ (namesKeys services).toFinset \ resq.toFinset,
        ∃ y ∈ (namesKeys services).toFinset \ resq.toFinset,
          dependsOnRel services x y := by
      intro x hx
      obtain ⟨hxk, hxL⟩ := (hmemR x).mp hx
      have hne : consumed services resq x ≠ indeg0 services x := by
        intro he
        exact hxL (by simpa using (hinv.memIff x hxk).mpr he)
      have hexd : ∃ d, 0 < (adj0 services d).count x ∧ d ∉ resq := by
        by_contra hall2
        push_neg at hall2
        exact hne (consumed_all_sources_complete services resq hnod x
          (fun d hd => hall2 d hd))
      obtain ⟨d, hdc, hdL⟩ := hexd
      have hposmap := hdc
      rw [adj0_count] at hposmap
      obtain ⟨s, hsf, hs0⟩ := exists_pos_of_sum_pos _ _ hposmap
      have hsname : s.name = x := by
        have := List.of_mem_filter hsf
        simpa using this
      have hdmem : d ∈ depsOf s := List.count_pos_iff.mp hs0
      have hsserv : s ∈ services := List.mem_of_mem_filter hsf
      have hxdep : dependsOnRel services x d := ⟨s, hsserv, hsname, hdmem⟩
      have hdk : d ∈ namesKeys services := by
        rw [namesKeys, List.mem_dedup]
        exact hclosed s hsserv d hdmem
      exact ⟨d, (hmemR d).mpr ⟨hdk, hdL⟩, hxdep⟩
    have hstep' : ∀ x : ↥((namesKeys services).toFinset \ resq.toFinset),
        ∃ y : ↥((namesKeys services).toFinset \ resq.toFinset),
          dependsOnRel services x.1 y.1 := by
      intro x
      obtain ⟨y, hy, hxy⟩ := hstep x.1 x.2
      exact ⟨⟨y, hy⟩, hxy⟩
    choose g hg using hstep'
    have hchain : ∀ (k : Nat), 0 < k →
        ∀ x : ↥((namesKeys services).toFinset \ resq.toFinset),
          Relation.TransGen (dependsOnRel services) x.1 (g^[k] x).1 := by
      intro k
      induction k with
      | zero => intro h0; omega
      | succ k ihk =>
          intro _ x
          rcases Nat.eq_zero_or_pos k with hk | hk
          · subst hk
            simpa using Relation.TransGen.single (hg x)
          · have h1 := ihk hk x
            rw [Function.iterate_succ_apply']
            exact h1.tail (hg _)
    have hfin := Finite.exists_ne_map_eq_of_infinite
      (fun k : Nat => g^[k] ⟨m0, hR0⟩)
    obtain ⟨a, b, hab, he⟩ := hfin
    have key : ∀ (a b : Nat), a < b →
        g^[a] ⟨m0, hR0⟩ = g^[b] ⟨m0, hR0⟩ → False := by
      intro a b hlt he2
      have hiter : g^[b] ⟨m0, hR0⟩ = g^[b - a] (g^[a] ⟨m0, hR0⟩) := by
        rw [← Function.iterate_add_apply]
        congr 1
        omega
      have hcyc := hchain (b - a) (by omega) (g^[a] ⟨m0, hR0⟩)
      rw [← hiter, ← he2] at hcyc
      exact hacyclic ⟨_, hcyc⟩
    rcases Nat.lt_or_ge a b with hlt | hge
    · exact key a b hlt he
    · have hlt2 : b < a := by omega
      exact key b a hlt2 he.symm
  have hgelen : (namesKeys services).length ≤ resq.length :=
    (List.subperm_of_subset (List.nodup_dedup _) hall).length_le
  have hleneq : resq.length = (namesKeys services).length :=
    le_antisymm hlen_le hgelen
  refine ⟨resq, ?_⟩
  simp only [topo_order]
  rw [heq, if_pos hleneq]

/-- A rank function strictly decreasing along dependency edges rules out
cycles. -/
theorem no_cycle_of_rank (services : List Service) (rank : String → Nat)
    (h : ∀ a b, dependsOnRel services a b → rank b < rank a) :
    ¬ hasCycle services := by
  rintro ⟨n, hn⟩
  have hmono : ∀ a b, Relation.TransGen (dependsOnRel services) a b →
      rank b < rank a := by
    intro a b hab
    induction hab with
    | single h1 => exact h _ _ h1
    | tail _ hbc ih => exact lt_trans (h _ _ hbc) ih
  exact lt_irrefl _ (hmono n n hn)

/-- Claim C2: for a well-formed acyclic configuration (unique names,
every dependency declared, no dependency cycle) and any hash-map
iteration order, resolution succeeds, the resolved order contains every
service name exactly once (it is a permutation of the declared names),
and every service appears strictly after each of its dependencies. -/
theorem topo_order_acyclic_correct (sigma : List String)
    (services : List Service)
    (hperm : sigma.Perm (namesKeys services))
    (hnodup : (serviceNames services).Nodup)
    (hclosed : ∀ s ∈ services, ∀ d ∈ depsOf s, d ∈ serviceNames services)
    (hacyclic : ¬ hasCycle services) :
    ∃ res, topo_order sigma services = Except.ok res ∧
      res.Perm (serviceNames services) ∧
      ∀ s ∈ services, ∀ d ∈ depsOf s,
        ∃ i j : Fin res.length, i.1 < j.1 ∧ res.get i = d ∧
          res.get j = s.name := by
  obtain ⟨res, hok⟩ := topo_complete sigma services hperm hclosed hacyclic
  obtain ⟨hp, hord⟩ := topo_ok_spec sigma services res hperm hok
  have hkeys : namesKeys services = serviceNames services :=
    List.dedup_eq_self.mpr hnodup
  exact ⟨res, hok, hkeys ▸ hp, hord⟩

/-- Instantiation of `topo_order_acyclic_correct` at the acyclic chain
`db ← backend ← frontend`. -/
theorem topo_order_acyclic_correct_witness :
    ∃ res, topo_order ["db", "backend", "frontend"] chainServices =
        Except.ok res ∧
      res.Perm (serviceNames chainServices) ∧
      ∀ s ∈ chainServices, ∀ d ∈ depsOf s,
        ∃ i j : Fin res.length, i.1 < j.1 ∧ res.get i = d ∧
          res.get j = s.name :=
  topo_order_acyclic_correct ["db", "backend", "frontend"] chainServices
    (by decide) (by decide) (by decide)
    (no_cycle_of_rank chainServices
      (fun n => if n = "frontend" then 2 else if n = "backend" then 1 else 0)
      (by
        rintro a b ⟨s, hs, rfl, hd⟩
        fin_cases hs
        · simp [depsOf, svcDb] at hd
        · simp only [depsOf, svcBackend, Option.getD_some,
            List.mem_singleton] at hd
          subst hd
          decide
        · simp only [depsOf, svcFrontend, Option.getD_some,
            List.mem_singleton] at hd
          subst hd
          decide))

/-- Claim C3: a dependency cycle makes `topo_order` fail with the
`DependencyError` message, and `up` then returns that error with no
process spawned and no state written. -/
theorem up_cycle_error (sigma : List String)
    (spawnFn : Service → Except String RunningService)
    (healthFn : HealthCheck → Except String Unit) (cfg : WorkspaceConfig)
    (hperm : sigma.Perm (namesKeys cfg.services))
    (hcyc : hasCycle cfg.services) :
    topo_order sigma cfg.services = Except.error "cycle in dependencies" ∧
    upRun sigma spawnFn healthFn cfg =
      ⟨[], Option.none, Except.error "cycle in dependencies"⟩ := by
  have htopo : topo_order sigma cfg.services =
      Except.error "cycle in dependencies" := by
    cases h : topo_order sigma cfg.services with
    | ok res =>
        exact absurd hcyc (no_cycle_of_topo_ok sigma cfg.services res hperm h)
    | error e =>
        rw [topo_error_msg sigma cfg.services e h]
  exact ⟨htopo, by unfold upRun; rw [htopo]⟩

/-- Instantiation of `up_cycle_error` at the two-cycle `ca ↔ cb`. -/
theorem up_cycle_error_witness :
    upRun ["ca", "cb"] spawnWok healthW cfgCycle =
      ⟨[], Option.none, Except.error "cycle in dependencies"⟩ := by
  have hcyc : hasCycle cfgCycle.services := by
    have h1 : dependsOnRel cfgCycle.services "ca" "cb" :=
      ⟨svcCycA, by decide, rfl, by decide⟩
    have h2 : dependsOnRel cfgCycle.services "cb" "ca" :=
      ⟨svcCycB, by decide, rfl, by decide⟩
    exact ⟨"ca", Relation.TransGen.tail (Relation.TransGen.single h1) h2⟩
  exact (up_cycle_error ["ca", "cb"] spawnWok healthW cfgCycle
    (by decide) hcyc).2

/-- Claim C9 as stated is false: the seed order of the queue is the
`indeg` hash map's iteration order, not the input declaration order, so
two iteration orders that are both permutations of the same two
independent services yield different resolved orders — the result is not
a function of the input list alone. -/
theorem topo_seed_not_input_order :
    topo_order ["b", "a"] cfgW.services = Except.ok ["b", "a"] ∧
    topo_order ["a", "b"] cfgW.services = Except.ok ["a", "b"] ∧
    (["b", "a"] : List String) ≠ ["a", "b"] ∧
    (["b", "a"] : List String).Perm (namesKeys cfgW.services) ∧
    (["a", "b"] : List String).Perm (namesKeys cfgW.services) :=
  ⟨rfl, rfl, by decide, by decide, by decide⟩

/-- Claim C9 (amended): ties among simultaneously-ready services are
broken by the FIFO order induced by the hash map's unspecified iteration
order; the chain `db ← backend ← frontend` has exactly one ready service
at each step, so it resolves to exactly `["db", "backend", "frontend"]`
under every iteration order. -/
theorem topo_chain_all_orders (sigma : List String)
    (hperm : sigma.Perm (namesKeys chainServices)) :
    topo_order sigma chainServices =
      Except.ok ["db", "backend", "frontend"] := by
  have hq : sigma.filter (fun n => indeg0 chainServices n == 0) = ["db"] := by
    have hp := hperm.filter (fun n => indeg0 chainServices n == 0)
    have hk : (namesKeys chainServices).filter
        (fun n => indeg0 chainServices n == 0) = ["db"] := by decide
    rw [hk] at hp
    exact List.perm_singleton.mp hp
  simp only [topo_order]
  rw [hq]
  rfl

/-- Instantiation of `topo_chain_all_orders` at an iteration order far
from the declaration order. -/
theorem topo_chain_all_orders_witness :
    topo_order ["frontend", "db", "backend"] chainServices =
      Except.ok ["db", "backend", "frontend"] :=
  topo_chain_all_orders ["frontend", "db", "backend"] (by decide)

/-- Claim C10: a `depends_on` entry naming an undeclared service makes
resolution fail with the same cycle error (the dependent never reaches
in-degree zero), and `up` spawns nothing and writes nothing. -/
theorem up_undeclared_dep_error (sigma : List String)
    (spawnFn : Service → Except String RunningService)
    (healthFn : HealthCheck → Except String Unit) (cfg : WorkspaceConfig)
    (hperm : sigma.Perm (namesKeys cfg.services))
    (hundecl : ∃ s ∈ cfg.services, ∃ d ∈ depsOf s,
      d ∉ serviceNames cfg.services) :
    topo_order sigma cfg.services = Except.error "cycle in dependencies" ∧
    upRun sigma spawnFn healthFn cfg =
      ⟨[], Option.none, Except.error "cycle in dependencies"⟩ := by
  obtain ⟨s, hs, d, hd, hnd⟩ := hundecl
  have htopo : topo_order sigma cfg.services =
      Except.error "cycle in dependencies" := by
    cases h : topo_order sigma cfg.services with
    | ok res =>
        exfalso
        obtain ⟨hp, hord⟩ := topo_ok_spec sigma cfg.services res hperm h
        obtain ⟨i, j, hij, hi, hj⟩ := hord s hs d hd
        have hdres : d ∈ res := hi ▸ res.get_mem i.1 i.2
        have hdkeys : d ∈ namesKeys cfg.services := (hp.mem_iff).mp hdres
        rw [namesKeys, List.mem_dedup] at hdkeys
        exact hnd hdkeys
    | error e =>
        rw [topo_error_msg sigma cfg.services e h]
  exact ⟨htopo, by unfold upRun; rw [htopo]⟩

/-- Instantiation of `up_undeclared_dep_error` at a single service
depending on the undeclared name `ghost`. -/
theorem up_undeclared_dep_error_witness :
    upRun ["u"] spawnWok healthW cfgUndeclared =
      ⟨[], Option.none, Except.error "cycle in dependencies"⟩ :=
  (up_undeclared_dep_error ["u"] spawnWok healthW cfgUndeclared (by decide)
    ⟨svcUndeclared, by decide, "ghost", by decide, by decide⟩).2
